import Mathlib

/-
Verification of the foundry-trace-viewer core (trace-text-to-tree parser,
section aggregation, and tree search), shallowly embedded from the source
(src/unnamed/part_000, the variant whose parseTraceFile maintains the
global line-id counter described in the spec; src/src/App.tsx and
src/unnamed/part_001 duplicate the same parseTraceLines logic).

Strings are modelled as `List Char` inside the parsing pipeline and as
`String` in node fields, matching the JS code.  JS regular-expression
behaviour is modelled character by character:
  * `\s` is the JS whitespace class `jsWS`;
  * `^(\s*(?:[│├└]─?\s*)*)` is `matchIndent` (greedy, always succeeds);
  * `/[│├└]/g` match count is `countGlyphs`;
  * `/([A-Za-z0-9_]+)::([A-Za-z0-9_]+)\((.*?)\)/` first-match search is
    `fnMatch` (left-to-right start positions, greedy `+` runs followed by
    the literal `::` / `(`, non-greedy argument part = a `)` must occur
    before any newline);
  * `text.split(/Traces:\s*/g)` is `splitSections`;
  * `String.prototype.includes` is `containsSub`, `trim` is `jsTrim`.
JS number-to-string interpolation for ids is `natStr` (base-10 digits).
Mutation of the shared tree objects is embedded functionally: the
builder's `currentStack` keeps each open node's already-collected
children and a node is folded into its parent's child list when it is
popped (`popN` / `collapse`), which yields the same final forest as the
JS in-place `children.push`; the search's `child.parent = trace`
assignment is embedded by threading the discovered parent id (`pid`)
into the rebuilt tree.
-/

namespace TraceViewer

/- ===== JS string primitives ===== -/

/-- The JS `\s` character class (also the set trimmed by `trim()`). -/
def jsWS (c : Char) : Bool :=
  c == ' ' || c == '\t' || c == '\n' || c == '\r' ||
  c == '\x0b' || c == '\x0c' || c == '\u00A0' || c == '\u1680' ||
  ('\u2000' <= c && c <= '\u200A') || c == '\u2028' || c == '\u2029' ||
  c == '\u202F' || c == '\u205F' || c == '\u3000' || c == '\uFEFF'

/-- JS `String.prototype.trim`. -/
def jsTrim (l : List Char) : List Char :=
  ((l.dropWhile jsWS).reverse.dropWhile jsWS).reverse

/-- JS `hay.includes(needle)`. -/
def containsSub : List Char → List Char → Bool
  | hay, needle =>
    needle.isPrefixOf hay ||
      match hay with
      | [] => false
      | _ :: t => containsSub t needle

/-- JS `toLowerCase`, restricted to the ASCII range (the only case the
traces exercise); both sides of the search comparison go through it. -/
def toLowerL (l : List Char) : List Char := l.map Char.toLower

def digitChar (k : Nat) : Char := Char.ofNat (48 + k)

/-- Base-10 digit list of `n`, with fuel (`fuel > n` suffices). -/
def natDigitsAux : Nat → Nat → List Char
  | 0, _ => []
  | fuel + 1, n =>
    if n < 10 then [digitChar n]
    else natDigitsAux fuel (n / 10) ++ [digitChar (n % 10)]

/-- JS template-literal rendering of a Nat. -/
def natStr (n : Nat) : String := ⟨natDigitsAux (n + 1) n⟩

/-- The id produced for line counter value `n`. -/
def idStr (n : Nat) : String := "trace-" ++ natStr n

/-- Base-10 value of a digit list (used to prove `natStr` injective). -/
def digitsVal (l : List Char) : Nat := l.foldl (fun a c => 10 * a + (c.toNat - 48)) 0

/- ===== Line classifier ===== -/

def isGlyph (c : Char) : Bool := c == '│' || c == '├' || c == '└'

/-- `(indentPart.match(/[│├└]/g) || []).length`. -/
def countGlyphs (l : List Char) : Nat := (l.filter isGlyph).length

/-- The `(?:[│├└]─?\s*)*` part of the indent regex: returns
(consumed, remainder).  Fuel ≥ input length makes it total. -/
def matchGroupsF : Nat → List Char → List Char × List Char
  | 0, cs => ([], cs)
  | _ + 1, [] => ([], [])
  | fuel + 1, c :: rest =>
    if isGlyph c then
      let dr : List Char × List Char :=
        if rest.head? = some '─' then (['─'], rest.tail) else ([], rest)
      let w := dr.2.takeWhile jsWS
      let r2 := dr.2.dropWhile jsWS
      let pr := matchGroupsF fuel r2
      (c :: (dr.1 ++ w ++ pr.1), pr.2)
    else ([], c :: rest)

/-- `line.match(/^(\s*(?:[│├└]─?\s*)*)/)`: (indentPart, rest of line).
The pattern always matches, so the `!indentMatch` skip never fires. -/
def matchIndent (cs : List Char) : List Char × List Char :=
  let w0 := cs.takeWhile jsWS
  let r := cs.dropWhile jsWS
  let pr := matchGroupsF r.length r
  (w0 ++ pr.1, pr.2)

def isWordChar (c : Char) : Bool :=
  ('A' ≤ c && c ≤ 'Z') || ('a' ≤ c && c ≤ 'z') || ('0' ≤ c && c ≤ '9') || c == '_'

/-- For the non-greedy `(.*?)\)`: a `)` must occur before any newline. -/
def hasCloseParen : List Char → Bool
  | [] => false
  | ')' :: _ => true
  | '\n' :: _ => false
  | _ :: r => hasCloseParen r

/-- `/([A-Za-z0-9_]+)::([A-Za-z0-9_]+)\((.*?)\)/` anchored at the start:
greedy word runs (no backtracking can shorten them usefully since the
next literal is not a word char), returns (group1, group2). -/
def tryFnMatch (cs : List Char) : Option (List Char × List Char) :=
  let w1 := cs.takeWhile isWordChar
  let r1 := cs.dropWhile isWordChar
  if w1.isEmpty then none
  else
    match r1 with
    | ':' :: ':' :: r2 =>
      let w2 := r2.takeWhile isWordChar
      let r3 := r2.dropWhile isWordChar
      if w2.isEmpty then none
      else
        match r3 with
        | '(' :: r4 => if hasCloseParen r4 then some (w1, w2) else none
        | _ => none
    | _ => none

/-- First match of the function pattern: RegExp scans start positions
left to right. -/
def fnMatch : List Char → Option (List Char × List Char)
  | [] => none
  | c :: rest =>
    match tryFnMatch (c :: rest) with
    | some r => some r
    | none => fnMatch rest

/-- The call-type substring checks, in source order. -/
def detectCallType (content : List Char) : Option String :=
  if containsSub content "[staticcall]".data then some "staticcall"
  else if containsSub content "[call]".data then some "call"
  else if containsSub content "[delegatecall]".data then some "delegatecall"
  else none

/-- `content.includes('← [Return]') || content.includes('← [Stop]')`. -/
def detectIsReturn (content : List Char) : Bool :=
  containsSub content "← [Return]".data || containsSub content "← [Stop]".data

/- ===== Data model ===== -/

/-- The fields of the `Trace` interface (children separated out below).
`stackId` and `parent` are the optional fields mutated after build. -/
structure TraceData where
  id : String
  content : String
  depth : Nat
  contractName : Option String
  functionName : Option String
  callType : Option String
  isReturn : Bool
  raw : String
  rowIndex : Nat
  stackId : Option Nat
  parent : Option String
deriving DecidableEq, Repr

mutual
inductive Trace where
  | node (data : TraceData) (children : TraceList)
inductive TraceList where
  | nil
  | cons (t : Trace) (ts : TraceList)
end

def Trace.data : Trace → TraceData
  | .node d _ => d

def Trace.children : Trace → TraceList
  | .node _ cs => cs

def TraceList.append : TraceList → TraceList → TraceList
  | .nil, ys => ys
  | .cons x xs, ys => .cons x (TraceList.append xs ys)

/-- JS `children.push(t)`. -/
def TraceList.snoc (xs : TraceList) (t : Trace) : TraceList :=
  TraceList.append xs (.cons t .nil)

/- ===== Line → node ===== -/

/-- One loop iteration of `parseTraceLines` up to node creation:
`none` when the line is skipped (blank line, or empty content after
stripping the indent prefix); otherwise (depth, trimmed content). -/
def classifyLine (line : List Char) : Option (Nat × List Char) :=
  if (jsTrim line).isEmpty then none
  else
    let pr := matchIndent line
    let content := jsTrim pr.2
    if content.isEmpty then none
    else some (countGlyphs pr.1, content)

/-- The trace object literal created for a classified line. -/
def mkTraceData (lineId depth : Nat) (content : List Char) : TraceData :=
  { id := "trace-" ++ natStr lineId
  , content := ⟨content⟩
  , depth := depth
  , contractName := (fnMatch content).map fun p => (⟨p.1⟩ : String)
  , functionName := (fnMatch content).map fun p => (⟨p.2⟩ : String)
  , callType := detectCallType content
  , isReturn := detectIsReturn content
  , raw := ⟨content⟩
  , rowIndex := lineId + 1
  , stackId := none
  , parent := none }

/- ===== Tree builder ===== -/

/-- Builder state: finished roots plus the open ancestor chain
(deepest first); each open node carries the children collected so far. -/
structure BState where
  roots : List Trace
  stack : List (TraceData × TraceList)

/-- Close the deepest open node into its parent's child list (the JS
did the `children.push` at push time on shared objects; folding at pop
time produces the same tree). -/
def mergeTop (e f : TraceData × TraceList) : TraceData × TraceList :=
  (f.1, f.2.snoc (Trace.node e.1 e.2))

def popN : Nat → List (TraceData × TraceList) → List (TraceData × TraceList)
  | 0, s => s
  | _ + 1, [] => []
  | _ + 1, [e] => [e]
  | n + 1, e :: f :: rest => popN n (mergeTop e f :: rest)

/-- `currentStack = currentStack.slice(0, d)`. -/
def truncStack (d : Nat) (s : List (TraceData × TraceList)) : List (TraceData × TraceList) :=
  popN (s.length - d) s

def collapseGo (t : Trace) : List (TraceData × TraceList) → Trace
  | [] => t
  | e :: rest => collapseGo (Trace.node e.1 (e.2.snoc t)) rest

/-- Close the whole open chain into one finished root tree. -/
def collapse : List (TraceData × TraceList) → Option Trace
  | [] => none
  | e :: rest => some (collapseGo (Trace.node e.1 e.2) rest)

/-- The `// Add to appropriate level in the tree` dispatch of
`parseTraceLines` for one created node. -/
def stepTrace (st : BState) (nd : TraceData) : BState :=
  if nd.depth = 0 then
    { roots := st.roots ++ (collapse st.stack).toList, stack := [(nd, .nil)] }
  else if nd.depth ≤ st.stack.length then
    { roots := st.roots, stack := (nd, .nil) :: truncStack nd.depth st.stack }
  else if 0 < st.stack.length then
    { roots := st.roots, stack := (nd, .nil) :: st.stack }
  else
    st

def parseLinesGo : BState → Nat → List (List Char) → BState × Nat
  | st, lineId, [] => (st, lineId)
  | st, lineId, l :: ls =>
    match classifyLine l with
    | none => parseLinesGo st lineId ls
    | some (d, content) =>
      parseLinesGo (stepTrace st (mkTraceData lineId d content)) (lineId + 1) ls

/-- `parseTraceLines(lines, startLineId)`. -/
def parseTraceLines (lines : List (List Char)) (startLineId : Nat) : List Trace :=
  let r := parseLinesGo ⟨[], []⟩ startLineId lines
  r.1.roots ++ (collapse r.1.stack).toList

/- ===== Section aggregator ===== -/

/-- `section.split('\n')`. -/
def splitNLGo : List Char → List Char → List (List Char)
  | [], acc => [acc.reverse]
  | '\n' :: rest, acc => acc.reverse :: splitNLGo rest []
  | c :: rest, acc => splitNLGo rest (c :: acc)

def splitNL (cs : List Char) : List (List Char) := splitNLGo cs []

def sectionMarker : List Char := "Traces:".data

/-- `text.split(/Traces:\s*/g)` scanning with fuel (fuel ≥ length
suffices): at each position, a match (the literal marker plus the
maximal following whitespace) cuts a segment. -/
def splitSecF : Nat → List Char → List Char → List (List Char)
  | 0, cs, acc => [acc.reverse ++ cs]
  | fuel + 1, cs, acc =>
    if sectionMarker.isPrefixOf cs then
      acc.reverse :: splitSecF fuel ((cs.drop 7).dropWhile jsWS) []
    else
      match cs with
      | [] => [acc.reverse]
      | c :: rest => splitSecF fuel rest (c :: acc)

def splitSections (cs : List Char) : List (List Char) := splitSecF cs.length cs []

/-- The section loop of `parseTraceFile`: parse each section, advancing
the global line-id counter by the section's raw line count. -/
def parseSections : List (List Char) → Nat → List Trace
  | [], _ => []
  | sec :: rest, gid =>
    parseTraceLines (splitNL sec) gid ++ parseSections rest (gid + (splitNL sec).length)

mutual
/-- `assignStackIds(traces, stackId)` (recursive stackId propagation). -/
def assignStackIds (sid : Nat) : TraceList → TraceList
  | .nil => .nil
  | .cons t ts => .cons (setTraceStackId sid t) (assignStackIds sid ts)
/-- `trace.stackId = sid; assignStackIds(trace.children, sid)`. -/
def setTraceStackId (sid : Nat) : Trace → Trace
  | .node d cs => .node { d with stackId := some sid } (assignStackIds sid cs)
end

/-- The `allTraces.forEach((trace, index) => ...)` post-pass. -/
def postAssign : Nat → List Trace → List Trace
  | _, [] => []
  | i, t :: ts => setTraceStackId i t :: postAssign (i + 1) ts

/-- `parseTraceFile` (successful-read path): split into sections, drop
empty segments, parse with the global counter, assign stack ids. -/
def parseTraceFile (text : String) : List Trace :=
  postAssign 0 (parseSections ((splitSections text.data).filter (fun s => !s.isEmpty)) 0)

/- ===== Query engine ===== -/

mutual
def collectIdsT : Trace → List String
  | .node d cs => d.id :: collectIdsC cs
def collectIdsC : TraceList → List String
  | .nil => []
  | .cons t ts => collectIdsT t ++ collectIdsC ts
end

/-- `getAllTraceIds` (pre-order id collection over the forest). -/
def getAllTraceIds : List Trace → List String
  | [] => []
  | t :: ts => collectIdsT t ++ getAllTraceIds ts

mutual
/-- `findMatches` of `handleSearch`.  `pid` is the parent id the caller
assigns to this node (`child.parent = trace`; `none` for roots), `anc`
the ids of the ancestor chain bottom-up — at visit time the JS `parent`
links along the chain were all just set by this same traversal, so
walking them collects exactly `anc`.  Returns the rebuilt node (with its
`parent` field updated) and the match-set contributions. -/
def findMatches (term : List Char) (pid : Option String) (anc : List String) :
    Trace → Trace × List String
  | .node d cs =>
    let d2 := match pid with
      | some p => { d with parent := some p }
      | none => d
    let here : List String :=
      if containsSub (toLowerL d.content.data) (toLowerL term) then d.id :: anc else []
    let r := findMatchesC term (some d.id) (d.id :: anc) cs
    (Trace.node d2 r.1, here ++ r.2)
def findMatchesC (term : List Char) (pid : Option String) (anc : List String) :
    TraceList → TraceList × List String
  | .nil => (.nil, [])
  | .cons t ts =>
    let r1 := findMatches term pid anc t
    let r2 := findMatchesC term pid anc ts
    (.cons r1.1 r2.1, r1.2 ++ r2.2)
end

/-- `traces.forEach(findMatches)` over the root list. -/
def findMatchesRoots (term : List Char) : List Trace → List Trace × List String
  | [] => ([], [])
  | t :: ts =>
    let r1 := findMatches term none [] t
    let r2 := findMatchesRoots term ts
    (r1.1 :: r2.1, r1.2 ++ r2.2)

/-- `handleSearch`: blank query clears the match set and touches
nothing; otherwise traverse, collecting matches plus ancestors and
(re)assigning `parent` links.  Returns (forest after traversal,
match set). -/
def handleSearch (term : String) (ts : List Trace) : List Trace × List String :=
  if (jsTrim term.data).isEmpty then (ts, [])
  else findMatchesRoots term.data ts

/- ===== Specification-side vocabulary ===== -/

mutual
/-- Pre-order list of node records of a tree. -/
def preDataT : Trace → List TraceData
  | .node d cs => d :: preDataC cs
def preDataC : TraceList → List TraceData
  | .nil => []
  | .cons t ts => preDataT t ++ preDataC ts
end

def preDataF : List Trace → List TraceData
  | [] => []
  | t :: ts => preDataT t ++ preDataF ts

/-- Node records held by a builder stack, in final pre-order. -/
def stackPre : List (TraceData × TraceList) → List TraceData
  | [] => []
  | e :: rest => stackPre rest ++ e.1 :: preDataC e.2

def statePre (st : BState) : List TraceData := preDataF st.roots ++ stackPre st.stack

mutual
/-- Every node of the forest together with the ids of its ancestor
chain, bottom-up (nearest ancestor first). -/
def nodesWithPathT (anc : List String) : Trace → List (Trace × List String)
  | .node d cs => (Trace.node d cs, anc) :: nodesWithPathC (d.id :: anc) cs
def nodesWithPathC (anc : List String) : TraceList → List (Trace × List String)
  | .nil => []
  | .cons t ts => nodesWithPathT anc t ++ nodesWithPathC anc ts
end

def nodesWithPathR : List Trace → List (Trace × List String)
  | [] => []
  | t :: ts => nodesWithPathT [] t ++ nodesWithPathR ts

mutual
/-- Every node of the subtree has `stackId = some sid`. -/
def allStackIdT (sid : Nat) : Trace → Bool
  | .node d cs => (d.stackId == some sid) && allStackIdC sid cs
def allStackIdC (sid : Nat) : TraceList → Bool
  | .nil => true
  | .cons t ts => allStackIdT sid t && allStackIdC sid ts
end

mutual
/-- Forget all `parent` fields (everything else untouched). -/
def eraseParentT : Trace → Trace
  | .node d cs => .node { d with parent := none } (eraseParentC cs)
def eraseParentC : TraceList → TraceList
  | .nil => .nil
  | .cons t ts => .cons (eraseParentT t) (eraseParentC ts)
end

def eraseParentR : List Trace → List Trace
  | [] => []
  | t :: ts => eraseParentT t :: eraseParentR ts

mutual
/-- Every non-root node's `parent` field names its structural parent. -/
def parentsOkT : Trace → Bool
  | .node d cs => parentsOkC d.id cs
def parentsOkC (pid : String) : TraceList → Bool
  | .nil => true
  | .cons t ts => (t.data.parent == some pid) && parentsOkT t && parentsOkC pid ts
end

def parentsOkR : List Trace → Bool
  | [] => true
  | t :: ts => parentsOkT t && parentsOkR ts

/- Indent-prefix generator for the grammar \s* ([│├└]─?\s*)*, used to
state the depth claim. -/

def wsOnly (l : List Char) : Bool := l.all jsWS

/-- One indent group: a glyph, an optional dash, trailing whitespace. -/
def mkGroup (g : Char × Bool × List Char) : List Char :=
  g.1 :: ((if g.2.1 then ['─'] else []) ++ g.2.2)

def mkGroups : List (Char × Bool × List Char) → List Char
  | [] => []
  | g :: gs => mkGroup g ++ mkGroups gs

def mkIndent (w0 : List Char) (gs : List (Char × Bool × List Char)) : List Char :=
  w0 ++ mkGroups gs

def goodGroup (g : Char × Bool × List Char) : Bool := isGlyph g.1 && wsOnly g.2.2

/-- The first character after the indent prefix must not extend it. -/
def stopsIndent : List Char → Bool
  | [] => true
  | c :: _ => !jsWS c && !isGlyph c && !(c == '─')

end TraceViewer

/- ===== Theorems ===== -/

namespace TraceViewer

/-- Structural induction for `Trace` (with a companion motive on
`TraceList`). -/
theorem traceInd {P : Trace → Prop} {Q : TraceList → Prop}
    (h : ∀ d cs, Q cs → P (Trace.node d cs))
    (h0 : Q TraceList.nil)
    (h1 : ∀ t ts, P t → Q ts → Q (TraceList.cons t ts)) :
    ∀ t, P t :=
  fun t => @Trace.rec P Q h h0 h1 t

/-- Structural induction for `TraceList`. -/
theorem traceListInd {P : Trace → Prop} {Q : TraceList → Prop}
    (h : ∀ d cs, Q cs → P (Trace.node d cs))
    (h0 : Q TraceList.nil)
    (h1 : ∀ t ts, P t → Q ts → Q (TraceList.cons t ts)) :
    ∀ ts, Q ts :=
  fun ts => @TraceList.rec P Q h h0 h1 ts

/-- C2: the call-type detection checks `[staticcall]`, `[call]`,
`[delegatecall]` in that order on the literal substrings of the content;
the first hit wins (so `[staticcall]` wins even when the others are also
present), and when none of the three substrings occurs the call type is
left unset. -/
theorem callType_priority (c : List Char) :
    (containsSub c "[staticcall]".data = true → detectCallType c = some "staticcall") ∧
    (containsSub c "[staticcall]".data = false → containsSub c "[call]".data = true →
      detectCallType c = some "call") ∧
    (containsSub c "[staticcall]".data = false → containsSub c "[call]".data = false →
      containsSub c "[delegatecall]".data = true → detectCallType c = some "delegatecall") ∧
    (containsSub c "[staticcall]".data = false → containsSub c "[call]".data = false →
      containsSub c "[delegatecall]".data = false → detectCallType c = none) := by
  refine ⟨fun h1 => ?_, fun h1 h2 => ?_, fun h1 h2 h3 => ?_, fun h1 h2 h3 => ?_⟩ <;>
    simp [detectCallType, h1] <;> simp [h2] <;> simp [h3]

/-- Witness for C2 at concrete contents exercising all four branches
(including a content that contains all three markers). -/
theorem callType_priority_witness :
    detectCallType "A::b() [staticcall] x [call] y [delegatecall]".data = some "staticcall" ∧
    detectCallType "A::b() [call] y [delegatecall]".data = some "call" ∧
    detectCallType "A::b() [delegatecall]".data = some "delegatecall" ∧
    detectCallType "A::b() nothing".data = none :=
  ⟨(callType_priority _).1 (by decide),
   (callType_priority _).2.1 (by decide) (by decide),
   (callType_priority _).2.2.1 (by decide) (by decide) (by decide),
   (callType_priority _).2.2.2 (by decide) (by decide) (by decide)⟩

/-- C4: a node whose depth exceeds the stack length while the stack is
non-empty is pushed right on top of the current stack — its tree is
folded into the child list of the node currently deepest in the stack,
with no synthetic intermediate levels; concretely, a depth-3 line right
after a depth-0 root becomes a direct child of that root. -/
theorem skipLevel_attach :
    (∀ (roots : List Trace) (stack : List (TraceData × TraceList)) (nd : TraceData),
      stack.length < nd.depth → stack ≠ [] →
      stepTrace ⟨roots, stack⟩ nd = ⟨roots, (nd, .nil) :: stack⟩) ∧
    (∀ (nd dt : TraceData) (ct : TraceList) (rest : List (TraceData × TraceList)),
      collapse ((nd, .nil) :: (dt, ct) :: rest) =
        collapse ((dt, ct.snoc (Trace.node nd .nil)) :: rest)) ∧
    parseTraceLines ["A::b()".data, "│ │ │ x".data] 0 =
      [Trace.node (mkTraceData 0 0 "A::b()".data)
        (.cons (Trace.node (mkTraceData 1 3 "x".data) .nil) .nil)] := by
  refine ⟨fun roots stack nd h hne => ?_, fun nd dt ct rest => rfl, rfl⟩
  have hlen : 0 < stack.length := List.length_pos.mpr hne
  simp only [stepTrace]
  rw [if_neg (by omega), if_neg (by omega), if_pos hlen]

/-- Witness for C4 at a concrete state: a depth-3 node over a
one-element (depth-0 root) stack. -/
theorem skipLevel_attach_witness :
    stepTrace ⟨[], [(mkTraceData 0 0 "r".data, .nil)]⟩ (mkTraceData 1 3 "x".data) =
      ⟨[], [(mkTraceData 1 3 "x".data, .nil), (mkTraceData 0 0 "r".data, .nil)]⟩ :=
  skipLevel_attach.1 [] [(mkTraceData 0 0 "r".data, .nil)] (mkTraceData 1 3 "x".data)
    (by decide) (by simp)

/-- C6: a node with non-zero depth arriving while the stack is empty
(no root has been seen yet in the section) is silently dropped: the
state is unchanged — no parent, no root-list entry, no error — and the
rest of the section still parses (the later depth-0 line becomes a
root; note it gets id `trace-1` because the dropped line consumed a
line id). -/
theorem emptyStack_drop :
    (∀ (roots : List Trace) (nd : TraceData), nd.depth ≠ 0 →
      stepTrace ⟨roots, []⟩ nd = ⟨roots, []⟩) ∧
    parseTraceLines ["  └─ lost".data, "A::b()".data] 0 =
      [Trace.node (mkTraceData 1 0 "A::b()".data) .nil] := by
  refine ⟨fun roots nd h => ?_, rfl⟩
  simp only [stepTrace]
  rw [if_neg h, if_neg (by simp [Nat.le_zero]; omega), if_neg (by simp)]

/-- Witness for C6 at a concrete depth-1 node over the empty stack. -/
theorem emptyStack_drop_witness :
    stepTrace ⟨[], []⟩ (mkTraceData 0 1 "x".data) = ⟨[], []⟩ :=
  emptyStack_drop.1 [] (mkTraceData 0 1 "x".data) (by decide)

/- ===== Id injectivity ===== -/

theorem digitChar_toNat (k : Nat) (h : k < 10) : (digitChar k).toNat = 48 + k := by
  have h10 : ∀ j : Fin 10, (digitChar j.val).toNat = 48 + j.val := by decide
  exact h10 ⟨k, h⟩

theorem digitsVal_append (l : List Char) (c : Char) :
    digitsVal (l ++ [c]) = 10 * digitsVal l + (c.toNat - 48) := by
  simp [digitsVal, List.foldl_append]

theorem digitsVal_natDigitsAux : ∀ fuel n, n < fuel → digitsVal (natDigitsAux fuel n) = n := by
  intro fuel
  induction fuel with
  | zero => intro n h; omega
  | succ f ih =>
    intro n h
    by_cases h10 : n < 10
    · simp only [natDigitsAux, if_pos h10, digitsVal, List.foldl]
      rw [digitChar_toNat n h10]
      omega
    · have hd : n / 10 < f := by
        have : n / 10 < n := Nat.div_lt_self (by omega) (by omega)
        omega
      rw [natDigitsAux, if_neg h10, digitsVal_append, ih _ hd,
        digitChar_toNat (n % 10) (Nat.mod_lt _ (by omega))]
      omega

theorem natDigits_inj (a b : Nat) (h : natDigitsAux (a + 1) a = natDigitsAux (b + 1) b) :
    a = b := by
  have ha := digitsVal_natDigitsAux (a + 1) a (Nat.lt_succ_self a)
  have hb := digitsVal_natDigitsAux (b + 1) b (Nat.lt_succ_self b)
  rw [← ha, ← hb, h]

theorem idStr_inj : Function.Injective idStr := by
  intro a b h
  have hd : "trace-".data ++ natDigitsAux (a + 1) a = "trace-".data ++ natDigitsAux (b + 1) b :=
    congrArg String.data h
  exact natDigits_inj a b (List.append_cancel_left hd)

/- ===== Pre-order data through the builder ===== -/

theorem preDataF_append (a b : List Trace) : preDataF (a ++ b) = preDataF a ++ preDataF b := by
  induction a with
  | nil => rfl
  | cons t ts ih => simp [preDataF, ih]

theorem preDataC_append (ys : TraceList) :
    ∀ xs, preDataC (TraceList.append xs ys) = preDataC xs ++ preDataC ys := by
  refine traceListInd (P := fun _ => True) (fun _ _ _ => trivial) ?_ ?_
  · simp [TraceList.append, preDataC]
  · intro t ts _ ih
    simp [TraceList.append, preDataC, ih]

theorem preDataC_snoc (xs : TraceList) (t : Trace) :
    preDataC (xs.snoc t) = preDataC xs ++ preDataT t := by
  simp [TraceList.snoc, preDataC_append, preDataC]

theorem collapseGo_pre : ∀ (s : List (TraceData × TraceList)) (t : Trace),
    preDataT (collapseGo t s) = stackPre s ++ preDataT t := by
  intro s
  induction s with
  | nil => intro t; simp [collapseGo, stackPre]
  | cons e rest ih =>
    intro t
    simp [collapseGo, ih, stackPre, preDataT, preDataC_snoc]

theorem collapse_pre (s : List (TraceData × TraceList)) :
    preDataF (collapse s).toList = stackPre s := by
  cases s with
  | nil => rfl
  | cons e rest =>
    simp [collapse, preDataF, collapseGo_pre, preDataT, stackPre]

theorem popN_pre : ∀ (n : Nat) (s : List (TraceData × TraceList)),
    stackPre (popN n s) = stackPre s := by
  intro n
  induction n with
  | zero => intro s; rfl
  | succ m ih =>
    intro s
    match s with
    | [] => rfl
    | [e] => rfl
    | e :: f :: rest =>
      rw [popN, ih]
      simp [stackPre, mergeTop, preDataC_snoc, preDataT]

theorem stepTrace_pre (st : BState) (nd : TraceData) :
    statePre (stepTrace st nd) = statePre st ++ [nd] ∨
    statePre (stepTrace st nd) = statePre st := by
  by_cases h0 : nd.depth = 0
  · left
    simp [stepTrace, h0, statePre, preDataF_append, collapse_pre, stackPre, preDataC]
  · by_cases h1 : nd.depth ≤ st.stack.length
    · left
      simp [stepTrace, h0, h1, statePre, stackPre, truncStack, popN_pre, preDataC]
    · by_cases h2 : 0 < st.stack.length
      · left
        simp [stepTrace, h0, h1, h2, statePre, stackPre, preDataC]
      · right
        simp [stepTrace, h0, h1, h2]

theorem parseLinesGo_inv : ∀ (lines : List (List Char)) (st : BState) (n : Nat),
    n ≤ (parseLinesGo st n lines).2 ∧
    (parseLinesGo st n lines).2 ≤ n + lines.length ∧
    ∃ ds : List TraceData,
      statePre (parseLinesGo st n lines).1 = statePre st ++ ds ∧
      (∃ l : List Nat, List.Pairwise (· < ·) l ∧
        (∀ x ∈ l, n ≤ x ∧ x < (parseLinesGo st n lines).2) ∧
        ds.map TraceData.id = l.map idStr) ∧
      ∀ d ∈ ds, ∃ k dep c, d = mkTraceData k dep c := by
  intro lines
  induction lines with
  | nil =>
    intro st n
    exact ⟨le_refl n, by simp [parseLinesGo], [], by simp [parseLinesGo],
      ⟨[], List.Pairwise.nil, by simp, by simp⟩, by simp⟩
  | cons l ls ih =>
    intro st n
    cases hcl : classifyLine l with
    | none =>
      have hgo : parseLinesGo st n (l :: ls) = parseLinesGo st n ls := by
        simp [parseLinesGo, hcl]
      rcases ih st n with ⟨ha, hb, ds, hds, ⟨nl, hp, hbnd, hmap⟩, hmk⟩
      rw [hgo]
      refine ⟨ha, ?_, ds, hds, ⟨nl, hp, hbnd, hmap⟩, hmk⟩
      simp only [List.length_cons]
      omega
    | some dc =>
      obtain ⟨dep, c⟩ := dc
      have hgo : parseLinesGo st n (l :: ls) =
          parseLinesGo (stepTrace st (mkTraceData n dep c)) (n + 1) ls := by
        simp [parseLinesGo, hcl]
      rcases ih (stepTrace st (mkTraceData n dep c)) (n + 1) with
        ⟨ha, hb, ds, hds, ⟨nl, hp, hbnd, hmap⟩, hmk⟩
      rw [hgo]
      rcases stepTrace_pre st (mkTraceData n dep c) with hstep | hstep
      · refine ⟨by omega, ?_, mkTraceData n dep c :: ds, ?_, ⟨n :: nl, ?_, ?_, ?_⟩, ?_⟩
        · simp only [List.length_cons]; omega
        · rw [hds, hstep]; simp
        · exact List.pairwise_cons.mpr ⟨fun x hx => by have := hbnd x hx; omega, hp⟩
        · intro x hx
          rcases List.mem_cons.mp hx with rfl | hx
          · exact ⟨le_refl x, by omega⟩
          · have := hbnd x hx; omega
        · simp only [List.map_cons, hmap]
          rfl
        · intro d hd
          rcases List.mem_cons.mp hd with rfl | hd
          · exact ⟨n, dep, c, rfl⟩
          · exact hmk d hd
      · refine ⟨by omega, ?_, ds, ?_, ⟨nl, hp, ?_, hmap⟩, hmk⟩
        · simp only [List.length_cons]; omega
        · rw [hds, hstep]
        · intro x hx
          have := hbnd x hx
          omega

theorem parseTraceLines_pre (lines : List (List Char)) (n : Nat) :
    preDataF (parseTraceLines lines n) = statePre (parseLinesGo ⟨[], []⟩ n lines).1 := by
  simp [parseTraceLines, statePre, preDataF_append, collapse_pre]

theorem parseTraceLines_spec (lines : List (List Char)) (n : Nat) :
    ∃ l : List Nat, List.Pairwise (· < ·) l ∧
      (∀ x ∈ l, n ≤ x ∧ x < n + lines.length) ∧
      (preDataF (parseTraceLines lines n)).map TraceData.id = l.map idStr ∧
      ∀ d ∈ preDataF (parseTraceLines lines n), ∃ k dep c, d = mkTraceData k dep c := by
  rcases parseLinesGo_inv lines ⟨[], []⟩ n with ⟨_, hb, ds, hds, ⟨nl, hp, hbnd, hmap⟩, hmk⟩
  have hpre : preDataF (parseTraceLines lines n) = ds := by
    rw [parseTraceLines_pre, hds]
    simp [statePre, preDataF, stackPre]
  refine ⟨nl, hp, fun x hx => ⟨(hbnd x hx).1, lt_of_lt_of_le (hbnd x hx).2 hb⟩, ?_, ?_⟩
  · rw [hpre]; exact hmap
  · rw [hpre]; exact hmk

theorem parseSections_spec : ∀ (secs : List (List Char)) (g : Nat),
    ∃ l : List Nat, List.Pairwise (· < ·) l ∧ (∀ x ∈ l, g ≤ x) ∧
      (preDataF (parseSections secs g)).map TraceData.id = l.map idStr ∧
      ∀ d ∈ preDataF (parseSections secs g), ∃ k dep c, d = mkTraceData k dep c := by
  intro secs
  induction secs with
  | nil =>
    intro g
    exact ⟨[], List.Pairwise.nil, by simp, by simp [parseSections, preDataF],
      by simp [parseSections, preDataF]⟩
  | cons sec rest ih =>
    intro g
    rcases parseTraceLines_spec (splitNL sec) g with ⟨l1, hp1, hb1, hm1, hk1⟩
    rcases ih (g + (splitNL sec).length) with ⟨l2, hp2, hb2, hm2, hk2⟩
    refine ⟨l1 ++ l2, ?_, ?_, ?_, ?_⟩
    · refine List.pairwise_append.mpr ⟨hp1, hp2, fun a haa b hbb => ?_⟩
      have h1 := hb1 a haa
      have h2 := hb2 b hbb
      omega
    · intro x hx
      rcases List.mem_append.mp hx with hx | hx
      · exact (hb1 x hx).1
      · have := hb2 x hx; omega
    · simp only [parseSections, preDataF_append, List.map_append, hm1, hm2]
    · intro d hd
      simp only [parseSections, preDataF_append, List.mem_append] at hd
      rcases hd with hd | hd
      · exact hk1 d hd
      · exact hk2 d hd

theorem setSid_pre (sid : Nat) : ∀ t : Trace,
    preDataT (setTraceStackId sid t) =
      (preDataT t).map (fun d => { d with stackId := some sid }) := by
  refine traceInd (Q := fun cs => preDataC (assignStackIds sid cs) =
      (preDataC cs).map (fun d => { d with stackId := some sid })) ?_ rfl ?_
  · intro d cs hq
    simp [setTraceStackId, preDataT, hq]
  · intro t ts iht ihts
    simp [assignStackIds, preDataC, iht, ihts]

theorem postAssign_map_id : ∀ (ts : List Trace) (i : Nat),
    (preDataF (postAssign i ts)).map TraceData.id = (preDataF ts).map TraceData.id := by
  intro ts
  induction ts with
  | nil => intro i; rfl
  | cons t tl ih =>
    intro i
    simp [postAssign, preDataF, List.map_append, setSid_pre, List.map_map, Function.comp, ih]

theorem postAssign_mem : ∀ (ts : List Trace) (i : Nat) (d : TraceData),
    d ∈ preDataF (postAssign i ts) →
    ∃ d0 s, d0 ∈ preDataF ts ∧ d = { d0 with stackId := some s } := by
  intro ts
  induction ts with
  | nil => intro i d hd; simp [postAssign, preDataF] at hd
  | cons t tl ih =>
    intro i d hd
    simp only [postAssign, preDataF, List.mem_append] at hd
    rcases hd with hd | hd
    · rw [setSid_pre] at hd
      rcases List.mem_map.mp hd with ⟨d0, hd0, rfl⟩
      exact ⟨d0, i, by simp [preDataF, List.mem_append, hd0], rfl⟩
    · rcases ih (i + 1) d hd with ⟨d0, s, hmem, heq⟩
      exact ⟨d0, s, by simp [preDataF, List.mem_append, hmem], heq⟩

theorem collectIdsT_eq : ∀ t : Trace, collectIdsT t = (preDataT t).map TraceData.id := by
  refine traceInd (Q := fun cs => collectIdsC cs = (preDataC cs).map TraceData.id) ?_ rfl ?_
  · intro d cs hq
    simp [collectIdsT, preDataT, hq]
  · intro t ts iht ihts
    simp [collectIdsC, preDataC, iht, ihts]

theorem getAllTraceIds_eq : ∀ ts : List Trace,
    getAllTraceIds ts = (preDataF ts).map TraceData.id := by
  intro ts
  induction ts with
  | nil => rfl
  | cons t tl ih => simp [getAllTraceIds, preDataF, collectIdsT_eq, ih]

/-- C1: every node of the forest parsed from a document carries a
globally unique id — the pre-order list of all ids has no duplicate —
because one line-id counter runs across all sections, advanced per
section by its raw line count, so the numeric parts of the ids form a
strictly increasing sequence. -/
theorem unique_ids (text : String) : (getAllTraceIds (parseTraceFile text)).Nodup := by
  rw [getAllTraceIds_eq, parseTraceFile, postAssign_map_id]
  rcases parseSections_spec ((splitSections text.data).filter (fun s => !s.isEmpty)) 0 with
    ⟨l, hp, _, hm, _⟩
  rw [hm]
  exact List.Nodup.map idStr_inj (hp.imp fun h => Nat.ne_of_lt h)

/- ===== stackId post-pass ===== -/

theorem allSid_set (sid : Nat) : ∀ t, allStackIdT sid (setTraceStackId sid t) = true := by
  refine traceInd (Q := fun cs => allStackIdC sid (assignStackIds sid cs) = true) ?_ rfl ?_
  · intro d cs hq
    simp [setTraceStackId, allStackIdT, hq]
  · intro t ts iht ihts
    simp [assignStackIds, allStackIdC, iht, ihts]

theorem postAssign_allSid : ∀ (ts : List Trace) (i j : Nat) (h : j < (postAssign i ts).length),
    allStackIdT (i + j) ((postAssign i ts).get ⟨j, h⟩) = true := by
  intro ts
  induction ts with
  | nil => intro i j h; simp [postAssign] at h
  | cons t tl ih =>
    intro i j h
    cases j with
    | zero =>
      simpa [postAssign] using allSid_set i t
    | succ m =>
      have h2 : m < (postAssign (i + 1) tl).length := by
        simp only [postAssign, List.length_cons] at h
        omega
      have hadd : i + (m + 1) = (i + 1) + m := by omega
      rw [hadd]
      simpa [postAssign] using ih (i + 1) m h2

/-- C7: after the aggregator post-pass, every node (at any depth) has
`stackId = some i` where `i` is the index of its top-level root in the
flat concatenated root sequence; in particular a document with two
one-root "Traces:" sections yields two roots carrying stackId 0 and 1. -/
theorem stackId_assignment :
    (∀ (text : String) (i : Nat) (h : i < (parseTraceFile text).length),
      allStackIdT i ((parseTraceFile text).get ⟨i, h⟩) = true) ∧
    parseTraceFile "Traces:\nA::a()\nTraces:\nB::b()" =
      [Trace.node { id := "trace-0", content := "A::a()", depth := 0,
                    contractName := some "A", functionName := some "a", callType := none,
                    isReturn := false, raw := "A::a()", rowIndex := 1, stackId := some 0,
                    parent := none } .nil,
       Trace.node { id := "trace-2", content := "B::b()", depth := 0,
                    contractName := some "B", functionName := some "b", callType := none,
                    isReturn := false, raw := "B::b()", rowIndex := 3, stackId := some 1,
                    parent := none } .nil] := by
  refine ⟨fun text i h => ?_, rfl⟩
  have := postAssign_allSid
    (parseSections ((splitSections text.data).filter (fun s => !s.isEmpty)) 0) 0 i
    (by simpa [parseTraceFile] using h)
  simpa [parseTraceFile] using this

/-- Witness for C7: the second root of the two-section example carries
stackId 1 everywhere. -/
theorem stackId_assignment_witness :
    allStackIdT 1 ((parseTraceFile "Traces:\nA::a()\nTraces:\nB::b()").get
      ⟨1, by decide⟩) = true :=
  stackId_assignment.1 "Traces:\nA::a()\nTraces:\nB::b()" 1 (by decide)

/-- C8: parsing "Traces:\nA::b(1,2)\n  └─ ← [Return]" yields exactly one
root node (contractName "A", functionName "b") with exactly one child
having isReturn = true and depth 1; and for every node the parser ever
produces, isReturn is true exactly when the trimmed content contains
"← [Return]" or "← [Stop]". -/
theorem example1_parse :
    parseTraceFile "Traces:\nA::b(1,2)\n  └─ ← [Return]" =
      [Trace.node
        { id := "trace-0", content := "A::b(1,2)", depth := 0, contractName := some "A",
          functionName := some "b", callType := none, isReturn := false, raw := "A::b(1,2)",
          rowIndex := 1, stackId := some 0, parent := none }
        (.cons (Trace.node
          { id := "trace-1", content := "← [Return]", depth := 1, contractName := none,
            functionName := none, callType := none, isReturn := true, raw := "← [Return]",
            rowIndex := 2, stackId := some 0, parent := none } .nil) .nil)] ∧
    ∀ (text : String) (d : TraceData), d ∈ preDataF (parseTraceFile text) →
      d.isReturn = (containsSub d.content.data "← [Return]".data ||
        containsSub d.content.data "← [Stop]".data) := by
  refine ⟨rfl, fun text d hd => ?_⟩
  rw [parseTraceFile] at hd
  rcases postAssign_mem _ 0 d hd with ⟨d0, s, hmem, rfl⟩
  rcases parseSections_spec ((splitSections text.data).filter (fun s => !s.isEmpty)) 0 with
    ⟨_, _, _, _, hk⟩
  rcases hk d0 hmem with ⟨k, dep, c, rfl⟩
  rfl

/-- Witness for C8: the return line's node of the example document,
checked against the isReturn characterisation. -/
theorem example1_parse_witness :
    ({ id := "trace-1", content := "← [Return]", depth := 1, contractName := none,
       functionName := none, callType := none, isReturn := true, raw := "← [Return]",
       rowIndex := 2, stackId := some 0, parent := none } : TraceData).isReturn =
      (containsSub "← [Return]".data "← [Return]".data ||
       containsSub "← [Return]".data "← [Stop]".data) :=
  example1_parse.2 "Traces:\nA::b(1,2)\n  └─ ← [Return]" _ (by decide)

/- ===== Search: ancestor expansion ===== -/

theorem findMatches_anc : ∀ t : Trace,
    ∀ (term : List Char) (pid : Option String) (anc : List String) (n : Trace)
      (nanc : List String),
      (n, nanc) ∈ nodesWithPathT anc t →
      containsSub (toLowerL n.data.content.data) (toLowerL term) = true →
      ∀ x ∈ n.data.id :: nanc, x ∈ (findMatches term pid anc t).2 := by
  refine traceInd (Q := fun cs =>
    ∀ (term : List Char) (pid : Option String) (anc : List String) (n : Trace)
      (nanc : List String),
      (n, nanc) ∈ nodesWithPathC anc cs →
      containsSub (toLowerL n.data.content.data) (toLowerL term) = true →
      ∀ x ∈ n.data.id :: nanc, x ∈ (findMatchesC term pid anc cs).2) ?_ ?_ ?_
  · intro d cs hq term pid anc n nanc hmem hmatch x hx
    rw [nodesWithPathT] at hmem
    rcases List.mem_cons.mp hmem with heq | hmem'
    · injection heq with h1 h2
      subst h1
      subst h2
      simp only [Trace.data] at hmatch hx
      simp only [findMatches, hmatch, if_pos]
      exact List.mem_append_left _ hx
    · have := hq term (some d.id) (d.id :: anc) n nanc hmem' hmatch x hx
      simp only [findMatches]
      exact List.mem_append_right _ this
  · intro term pid anc n nanc hmem
    simp [nodesWithPathC] at hmem
  · intro t ts ht hts term pid anc n nanc hmem hmatch x hx
    rw [nodesWithPathC] at hmem
    simp only [findMatchesC]
    rcases List.mem_append.mp hmem with hmem' | hmem'
    · exact List.mem_append_left _ (ht term pid anc n nanc hmem' hmatch x hx)
    · exact List.mem_append_right _ (hts term pid anc n nanc hmem' hmatch x hx)

theorem findMatchesRoots_anc :
    ∀ (rts : List Trace) (term : List Char) (n : Trace) (nanc : List String),
      (n, nanc) ∈ nodesWithPathR rts →
      containsSub (toLowerL n.data.content.data) (toLowerL term) = true →
      ∀ x ∈ n.data.id :: nanc, x ∈ (findMatchesRoots term rts).2 := by
  intro rts
  induction rts with
  | nil =>
    intro term n nanc hmem
    simp [nodesWithPathR] at hmem
  | cons t tl ih =>
    intro term n nanc hmem hmatch x hx
    rw [nodesWithPathR] at hmem
    simp only [findMatchesRoots]
    rcases List.mem_append.mp hmem with hmem' | hmem'
    · exact List.mem_append_left _ (findMatches_anc t term none [] n nanc hmem' hmatch x hx)
    · exact List.mem_append_right _ (ih term n nanc hmem' hmatch x hx)

/-- C3: after a search with a non-blank query, for every node whose
content contains the query case-insensitively, its own id and the id of
every node on the path up to its top-level root are in the match set. -/
theorem search_ancestor_closure (ts : List Trace) (term : String) (t : Trace)
    (anc : List String)
    (hterm : (jsTrim term.data).isEmpty = false)
    (hmem : (t, anc) ∈ nodesWithPathR ts)
    (hmatch : containsSub (toLowerL t.data.content.data) (toLowerL term.data) = true) :
    ∀ x ∈ t.data.id :: anc, x ∈ (handleSearch term ts).2 := by
  intro x hx
  have hsearch : handleSearch term ts = findMatchesRoots term.data ts := by
    simp [handleSearch, hterm]
  rw [hsearch]
  exact findMatchesRoots_anc ts term.data t anc hmem hmatch x hx

/-- Witness for C3: in the parsed example forest, searching "hit"
matches the depth-1 child, and the root's id lands in the match set. -/
theorem search_ancestor_closure_witness :
    "trace-0" ∈ (handleSearch "hit" (parseTraceFile "Traces:\nA::b()\n└─ hit me")).2 :=
  search_ancestor_closure (parseTraceFile "Traces:\nA::b()\n└─ hit me") "hit"
    (Trace.node { id := "trace-1", content := "hit me", depth := 1, contractName := none,
                  functionName := none, callType := none, isReturn := false, raw := "hit me",
                  rowIndex := 2, stackId := some 0, parent := none } .nil)
    ["trace-0"]
    (by decide)
    (List.mem_cons_of_mem _ (List.mem_cons_self _ _))
    (by decide)
    "trace-0" (by decide)

/- ===== Search: frame effect ===== -/

theorem findMatches_frame : ∀ t : Trace,
    ∀ (term : List Char) (pid : Option String) (anc : List String),
      eraseParentT (findMatches term pid anc t).1 = eraseParentT t ∧
      ((findMatches term pid anc t).1).data.id = t.data.id ∧
      (∀ p, pid = some p → ((findMatches term pid anc t).1).data.parent = some p) ∧
      parentsOkT (findMatches term pid anc t).1 = true := by
  refine traceInd (Q := fun cs =>
    ∀ (term : List Char) (pid : Option String) (anc : List String),
      eraseParentC (findMatchesC term pid anc cs).1 = eraseParentC cs ∧
      (∀ p, pid = some p → parentsOkC p (findMatchesC term pid anc cs).1 = true)) ?_ ?_ ?_
  · intro d cs hq term pid anc
    rcases hq term (some d.id) (d.id :: anc) with ⟨hqe, hqp⟩
    refine ⟨?_, ?_, ?_, ?_⟩
    · cases pid with
      | none => simp only [findMatches, eraseParentT, hqe]
      | some p => simp only [findMatches, eraseParentT, hqe]
    · cases pid with
      | none => rfl
      | some p => rfl
    · intro p hp
      subst hp
      rfl
    · cases pid with
      | none =>
        simp only [findMatches, parentsOkT]
        exact hqp d.id rfl
      | some p =>
        simp only [findMatches, parentsOkT]
        exact hqp d.id rfl
  · intro term pid anc
    exact ⟨rfl, fun p _ => rfl⟩
  · intro t ts ht hts term pid anc
    rcases ht term pid anc with ⟨he, _, hpar, hok⟩
    rcases hts term pid anc with ⟨hle, hlp⟩
    constructor
    · simp only [findMatchesC, eraseParentC, he, hle]
    · intro p hp
      simp only [findMatchesC, parentsOkC, hpar p hp, hok, hlp p hp, beq_self_eq_true,
        Bool.and_self, Bool.true_and, Bool.and_true]

theorem findMatchesRoots_frame : ∀ (rts : List Trace) (term : List Char),
    eraseParentR (findMatchesRoots term rts).1 = eraseParentR rts ∧
    parentsOkR (findMatchesRoots term rts).1 = true := by
  intro rts
  induction rts with
  | nil => intro term; exact ⟨rfl, rfl⟩
  | cons t tl ih =>
    intro term
    rcases findMatches_frame t term none [] with ⟨he, _, _, hok⟩
    rcases ih term with ⟨hle, hlok⟩
    constructor
    · simp only [findMatchesRoots, eraseParentR, he, hle]
    · simp only [findMatchesRoots, parentsOkR, hok, hlok, Bool.and_self]

/-- C9: search leaves the forest unchanged apart from `parent` fields —
forgetting parents, the output forest equals the input (same contents,
same children sequences, same shape) — and with a non-blank query every
visited child's `parent` field ends up naming its structural parent. -/
theorem search_frame (term : String) (ts : List Trace) :
    eraseParentR (handleSearch term ts).1 = eraseParentR ts ∧
    ((jsTrim term.data).isEmpty = false → parentsOkR (handleSearch term ts).1 = true) := by
  by_cases hb : (jsTrim term.data).isEmpty = true
  · constructor
    · simp [handleSearch, hb]
    · intro h
      rw [hb] at h
      cases h
  · have hb2 : (jsTrim term.data).isEmpty = false := by
      cases h : (jsTrim term.data).isEmpty
      · rfl
      · exact absurd h hb
    have h1 := findMatchesRoots_frame ts term.data
    constructor
    · simpa [handleSearch, hb2] using h1.1
    · intro _
      simpa [handleSearch, hb2] using h1.2

/-- Witness for C9: a concrete non-blank search over the example forest
populates every child's parent link. -/
theorem search_frame_witness :
    parentsOkR (handleSearch "hit" (parseTraceFile "Traces:\nA::b()\n└─ hit me")).1 = true :=
  (search_frame "hit" (parseTraceFile "Traces:\nA::b()\n└─ hit me")).2 (by decide)

/- ===== Indent depth ===== -/

theorem glyph_not_ws (c : Char) (h : isGlyph c = true) : jsWS c = false := by
  simp only [isGlyph, Bool.or_eq_true, beq_iff_eq] at h
  rcases h with (h | h) | h <;> subst h <;> decide

theorem glyph_ne_dash (c : Char) (h : isGlyph c = true) : (c == '─') = false := by
  simp only [isGlyph, Bool.or_eq_true, beq_iff_eq] at h
  rcases h with (h | h) | h <;> subst h <;> decide

theorem ws_not_glyph (c : Char) (h : jsWS c = true) : isGlyph c = false := by
  cases hg : isGlyph c
  · rfl
  · rw [glyph_not_ws c hg] at h
    cases h

theorem ws_ne_dash (c : Char) (h : jsWS c = true) : (c == '─') = false := by
  cases hd : c == '─'
  · rfl
  · have hc : c = '─' := by simpa using hd
    subst hc
    exact absurd h (by decide)

theorem wsTake : ∀ (w : List Char), wsOnly w = true →
    ∀ (tail : List Char), (∀ c ∈ tail.head?, jsWS c = false) →
    (w ++ tail).takeWhile jsWS = w ∧ (w ++ tail).dropWhile jsWS = tail := by
  intro w
  induction w with
  | nil =>
    intro _ tail ht
    cases tail with
    | nil => exact ⟨rfl, rfl⟩
    | cons c tl =>
      have hc := ht c (by simp)
      constructor
      · simp [List.takeWhile_cons, hc]
      · simp [List.dropWhile_cons, hc]
  | cons a w2 ih =>
    intro hw tail ht
    rcases (by simpa [wsOnly] using hw : jsWS a = true ∧ wsOnly w2 = true) with ⟨h1, h2⟩
    rcases ih h2 tail ht with ⟨ht1, ht2⟩
    constructor
    · simp [List.takeWhile_cons, h1, ht1]
    · simp [List.dropWhile_cons, h1, ht2]

theorem stopsIndent_cons (r : Char) (rl : List Char) (hr : stopsIndent (r :: rl) = true) :
    jsWS r = false ∧ isGlyph r = false ∧ (r == '─') = false := by
  simp only [stopsIndent, Bool.and_eq_true, Bool.not_eq_true'] at hr
  exact ⟨hr.1.1, hr.1.2, hr.2⟩

theorem head_not_ws_groups (gs : List (Char × Bool × List Char)) (rest : List Char)
    (hgs : ∀ g ∈ gs, goodGroup g = true) (hr : stopsIndent rest = true) :
    ∀ c ∈ (mkGroups gs ++ rest).head?, jsWS c = false := by
  cases gs with
  | nil =>
    cases rest with
    | nil => intro c hc; simp [mkGroups] at hc
    | cons r rl =>
      intro c hc
      have hh : (mkGroups [] ++ r :: rl).head? = some r := rfl
      rw [hh] at hc
      rcases (by simpa using hc : r = c) with rfl
      exact (stopsIndent_cons r rl hr).1
  | cons g gl =>
    intro c hc
    have hh : (mkGroups (g :: gl) ++ rest).head? = some g.1 := rfl
    rw [hh] at hc
    rcases (by simpa using hc : g.1 = c) with rfl
    have hg : isGlyph g.1 = true ∧ wsOnly g.2.2 = true := by
      simpa [goodGroup] using hgs g (by simp)
    exact glyph_not_ws g.1 hg.1

theorem head_not_dash_groups (gs : List (Char × Bool × List Char)) (rest : List Char)
    (hgs : ∀ g ∈ gs, goodGroup g = true) (hr : stopsIndent rest = true) :
    ∀ c ∈ (mkGroups gs ++ rest).head?, (c == '─') = false := by
  cases gs with
  | nil =>
    cases rest with
    | nil => intro c hc; simp [mkGroups] at hc
    | cons r rl =>
      intro c hc
      have hh : (mkGroups [] ++ r :: rl).head? = some r := rfl
      rw [hh] at hc
      rcases (by simpa using hc : r = c) with rfl
      exact (stopsIndent_cons r rl hr).2.2
  | cons g gl =>
    intro c hc
    have hh : (mkGroups (g :: gl) ++ rest).head? = some g.1 := rfl
    rw [hh] at hc
    rcases (by simpa using hc : g.1 = c) with rfl
    have hg : isGlyph g.1 = true ∧ wsOnly g.2.2 = true := by
      simpa [goodGroup] using hgs g (by simp)
    exact glyph_ne_dash g.1 hg.1

theorem head_not_dash_wsgroups (gw : List Char) (gs : List (Char × Bool × List Char))
    (rest : List Char) (hgw : wsOnly gw = true) (hgs : ∀ g ∈ gs, goodGroup g = true)
    (hr : stopsIndent rest = true) :
    ∀ c ∈ (gw ++ (mkGroups gs ++ rest)).head?, (c == '─') = false := by
  cases gw with
  | nil => exact head_not_dash_groups gs rest hgs hr
  | cons a gw2 =>
    intro c hc
    have hh : ((a :: gw2) ++ (mkGroups gs ++ rest)).head? = some a := rfl
    rw [hh] at hc
    rcases (by simpa using hc : a = c) with rfl
    have h1 : jsWS a = true := by
      rcases (by simpa [wsOnly] using hgw : jsWS a = true ∧ wsOnly gw2 = true) with ⟨h, _⟩
      exact h
    exact ws_ne_dash a h1

theorem matchGroupsF_gen : ∀ (gs : List (Char × Bool × List Char)) (rest : List Char)
    (fuel : Nat),
    (mkGroups gs ++ rest).length ≤ fuel →
    (∀ g ∈ gs, goodGroup g = true) →
    stopsIndent rest = true →
    matchGroupsF fuel (mkGroups gs ++ rest) = (mkGroups gs, rest) := by
  intro gs
  induction gs with
  | nil =>
    intro rest fuel hf hgs hr
    simp only [mkGroups, List.nil_append]
    cases rest with
    | nil => cases fuel <;> rfl
    | cons c rl =>
      have hc := stopsIndent_cons c rl hr
      cases fuel with
      | zero => simp at hf
      | succ f => simp [matchGroupsF, hc.2.1]
  | cons g gl ih =>
    obtain ⟨gc, gd, gw⟩ := g
    intro rest fuel hf hgs hr
    have hgood : isGlyph gc = true ∧ wsOnly gw = true := by
      simpa [goodGroup] using hgs (gc, gd, gw) (by simp)
    have hgl : ∀ x ∈ gl, goodGroup x = true := fun x hx => hgs x (by simp [hx])
    have hcs : mkGroups ((gc, gd, gw) :: gl) ++ rest =
        gc :: (((if gd then ['─'] else []) ++ gw) ++ (mkGroups gl ++ rest)) := by
      simp [mkGroups, mkGroup, List.append_assoc]
    cases fuel with
    | zero =>
      rw [hcs] at hf
      simp at hf
    | succ f =>
      have hlen : (mkGroups gl ++ rest).length ≤ f := by
        rw [hcs] at hf
        simp only [List.length_cons, List.length_append] at hf ⊢
        omega
      have hrec := ih rest f hlen hgl hr
      have hws := wsTake gw hgood.2 (mkGroups gl ++ rest) (head_not_ws_groups gl rest hgl hr)
      rw [hcs]
      cases gd with
      | true =>
        have hX : ((if true then ['─'] else []) ++ gw) ++ (mkGroups gl ++ rest) =
            '─' :: (gw ++ (mkGroups gl ++ rest)) := by simp
        rw [hX]
        simp only [matchGroupsF, hgood.1, if_true, List.head?_cons, List.tail_cons]
        simp only [hws.1, hws.2, hrec]
        simp [mkGroups, mkGroup, List.append_assoc]
      | false =>
        have hX : ((if false then ['─'] else []) ++ gw) ++ (mkGroups gl ++ rest) =
            gw ++ (mkGroups gl ++ rest) := by simp
        rw [hX]
        have hnd : ¬ ((gw ++ (mkGroups gl ++ rest)).head? = some '─') := by
          intro hcon
          have hmem := head_not_dash_wsgroups gw gl rest hgood.2 hgl hr '─'
            (by simp [Option.mem_def, hcon])
          simp at hmem
        simp only [matchGroupsF, hgood.1, if_true]
        rw [if_neg hnd]
        simp only [hws.1, hws.2, hrec]
        simp [mkGroups, mkGroup, List.append_assoc]

theorem countGlyphs_append (a b : List Char) :
    countGlyphs (a ++ b) = countGlyphs a + countGlyphs b := by
  simp [countGlyphs, List.filter_append]

theorem countGlyphs_ws : ∀ w : List Char, wsOnly w = true → countGlyphs w = 0 := by
  intro w
  induction w with
  | nil => intro _; rfl
  | cons a w2 ih =>
    intro hw
    rcases (by simpa [wsOnly] using hw : jsWS a = true ∧ wsOnly w2 = true) with ⟨h1, h2⟩
    simp only [countGlyphs, List.filter_cons, ws_not_glyph a h1, Bool.false_eq_true,
      if_false]
    exact ih h2

theorem countGlyphs_groups : ∀ gs : List (Char × Bool × List Char),
    (∀ g ∈ gs, goodGroup g = true) → countGlyphs (mkGroups gs) = gs.length := by
  intro gs
  induction gs with
  | nil => intro _; rfl
  | cons g gl ih =>
    intro hgs
    have hg : isGlyph g.1 = true ∧ wsOnly g.2.2 = true := by
      simpa [goodGroup] using hgs g (by simp)
    have hgl : ∀ x ∈ gl, goodGroup x = true := fun x hx => hgs x (by simp [hx])
    have hdash : countGlyphs (if g.2.1 then ['─'] else []) = 0 := by
      cases g.2.1 <;> decide
    have h1 : countGlyphs (mkGroup g) = 1 := by
      simp only [mkGroup, countGlyphs, List.filter_cons, hg.1, if_true, List.length_cons]
      have h0 : countGlyphs ((if g.2.1 then ['─'] else []) ++ g.2.2) = 0 := by
        rw [countGlyphs_append, countGlyphs_ws g.2.2 hg.2, hdash]
      simpa [countGlyphs] using h0
    calc countGlyphs (mkGroups (g :: gl))
        = countGlyphs (mkGroup g) + countGlyphs (mkGroups gl) := by
          simp [mkGroups, countGlyphs_append]
      _ = 1 + gl.length := by rw [h1, ih hgl]
      _ = (g :: gl).length := by simp [Nat.add_comm]

theorem matchIndent_gen (w0 : List Char) (gs : List (Char × Bool × List Char))
    (rest : List Char) (hw0 : wsOnly w0 = true) (hgs : ∀ g ∈ gs, goodGroup g = true)
    (hr : stopsIndent rest = true) :
    matchIndent (mkIndent w0 gs ++ rest) = (mkIndent w0 gs, rest) := by
  have hassoc : mkIndent w0 gs ++ rest = w0 ++ (mkGroups gs ++ rest) := by
    simp [mkIndent, List.append_assoc]
  have hws := wsTake w0 hw0 (mkGroups gs ++ rest) (head_not_ws_groups gs rest hgs hr)
  rw [hassoc]
  simp only [matchIndent, hws.1, hws.2]
  rw [matchGroupsF_gen gs rest (mkGroups gs ++ rest).length (le_refl _) hgs hr]
  simp [mkIndent]

/-- C5: a produced node's depth is the count of indent glyphs in the
line's maximal indent prefix; for a prefix generated by the grammar
whitespace* (glyph dash? whitespace*)*, the matcher consumes exactly
that prefix and the depth is the number of glyphs (one per group) —
independent of how much whitespace surrounds them and of the dashes. -/
theorem depth_glyph_count :
    (∀ (line : List Char) (dep : Nat) (content : List Char),
      classifyLine line = some (dep, content) → dep = countGlyphs (matchIndent line).1) ∧
    (∀ (w0 : List Char) (gs : List (Char × Bool × List Char)) (rest : List Char),
      wsOnly w0 = true → (∀ g ∈ gs, goodGroup g = true) → stopsIndent rest = true →
      matchIndent (mkIndent w0 gs ++ rest) = (mkIndent w0 gs, rest) ∧
      countGlyphs (mkIndent w0 gs) = gs.length) := by
  constructor
  · intro line dep content h
    simp only [classifyLine] at h
    split at h
    · exact absurd h (by simp)
    · split at h
      · exact absurd h (by simp)
      · injection h with h1
        injection h1 with ha hb
        exact ha.symm
  · intro w0 gs rest hw0 hgs hr
    refine ⟨matchIndent_gen w0 gs rest hw0 hgs hr, ?_⟩
    rw [mkIndent, countGlyphs_append, countGlyphs_ws w0 hw0, countGlyphs_groups gs hgs]
    simp

/-- Witness for C5: a depth-0 content line, and a three-group prefix
(mixed bars/tees/corners, assorted dashes and whitespace) giving
depth 3. -/
theorem depth_glyph_count_witness :
    (0 = countGlyphs (matchIndent "A::b()".data).1) ∧
    (matchIndent (mkIndent "  ".data
        [('│', false, " ".data), ('├', true, "".data), ('└', true, "   ".data)] ++
        "x y".data) =
      (mkIndent "  ".data
        [('│', false, " ".data), ('├', true, "".data), ('└', true, "   ".data)],
       "x y".data) ∧
     countGlyphs (mkIndent "  ".data
        [('│', false, " ".data), ('├', true, "".data), ('└', true, "   ".data)]) = 3) :=
  ⟨depth_glyph_count.1 "A::b()".data 0 "A::b()".data (by decide),
   depth_glyph_count.2 "  ".data
     [('│', false, " ".data), ('├', true, "".data), ('└', true, "   ".data)]
     "x y".data (by decide) (by decide) (by decide)⟩

/- ===== Section split ===== -/

theorem dropWhile_length_le (p : Char → Bool) : ∀ l : List Char,
    (l.dropWhile p).length ≤ l.length := by
  intro l
  induction l with
  | nil => simp
  | cons a l2 ih =>
    rw [List.dropWhile_cons]
    split
    · simp only [List.length_cons]
      omega
    · simp

theorem marker_length : sectionMarker.length = 7 := rfl

theorem marker_nil_false : sectionMarker.isPrefixOf ([] : List Char) = false := rfl

theorem splitSecF_fuelIrrel : ∀ (f1 f2 : Nat) (cs acc : List Char),
    cs.length ≤ f1 → cs.length ≤ f2 → splitSecF f1 cs acc = splitSecF f2 cs acc := by
  intro f1
  induction f1 with
  | zero =>
    intro f2 cs acc h1 _
    have hcs : cs = [] := List.length_eq_zero.mp (Nat.le_zero.mp h1)
    subst hcs
    cases f2 with
    | zero => rfl
    | succ g => simp [splitSecF, marker_nil_false]
  | succ g ih =>
    intro f2 cs acc h1 h2
    cases f2 with
    | zero =>
      have hcs : cs = [] := List.length_eq_zero.mp (Nat.le_zero.mp h2)
      subst hcs
      simp [splitSecF, marker_nil_false]
    | succ g2 =>
      by_cases hm : sectionMarker.isPrefixOf cs = true
      · have hlen : 7 ≤ cs.length := by
          have := (List.isPrefixOf_iff_prefix.mp hm).length_le
          simpa [marker_length] using this
        have hd1 := dropWhile_length_le jsWS (cs.drop 7)
        have hd2 : (cs.drop 7).length = cs.length - 7 := by simp
        simp only [splitSecF, hm, if_true]
        rw [ih g2 _ [] (by omega) (by omega)]
      · have hmf : sectionMarker.isPrefixOf cs = false := by
          cases hx : sectionMarker.isPrefixOf cs
          · rfl
          · exact absurd hx hm
        cases cs with
        | nil => rfl
        | cons c rest =>
          simp only [splitSecF, hmf, Bool.false_eq_true, if_false]
          exact ih g2 rest (c :: acc) (by simp only [List.length_cons] at h1; omega)
            (by simp only [List.length_cons] at h2; omega)

theorem splitSecF_no_marker : ∀ (cs : List Char) (f : Nat) (acc : List Char),
    cs.length ≤ f → containsSub cs sectionMarker = false →
    splitSecF f cs acc = [acc.reverse ++ cs] := by
  intro cs
  induction cs with
  | nil =>
    intro f acc _ _
    cases f with
    | zero => rfl
    | succ g => simp [splitSecF, marker_nil_false]
  | cons c rest ih =>
    intro f acc hf hc
    have hparts : sectionMarker.isPrefixOf (c :: rest) = false ∧
        containsSub rest sectionMarker = false := by
      have h2 : (sectionMarker.isPrefixOf (c :: rest) ||
          containsSub rest sectionMarker) = false := hc
      simpa [Bool.or_eq_false_iff] using h2
    cases f with
    | zero => simp at hf
    | succ g =>
      simp only [splitSecF, hparts.1, Bool.false_eq_true, if_false]
      rw [ih g (c :: acc) (by simp only [List.length_cons] at hf; omega) hparts.2]
      simp

theorem isPrefixOf_containsSub (l n : List Char) (h : n.isPrefixOf l = true) :
    containsSub l n = true := by
  cases l with
  | nil =>
    show (n.isPrefixOf ([] : List Char) || false) = true
    rw [h]
    rfl
  | cons c t =>
    show (n.isPrefixOf (c :: t) || containsSub t n) = true
    rw [h]
    rfl

theorem marker_no_straddle : ∀ (s rest : List Char),
    sectionMarker.isPrefixOf (s ++ (sectionMarker ++ rest)) = true →
    containsSub s sectionMarker = true ∨ s = [] := by
  intro s rest h
  have hpre : sectionMarker <+: s ++ (sectionMarker ++ rest) := List.isPrefixOf_iff_prefix.mp h
  have htake : sectionMarker = (s ++ (sectionMarker ++ rest)).take 7 := by
    have := List.prefix_iff_eq_take.mp hpre
    simpa [marker_length] using this
  by_cases hlen : 7 ≤ s.length
  · left
    have htake2 : (s ++ (sectionMarker ++ rest)).take 7 = s.take 7 :=
      List.take_append_of_le_length hlen
    have hms : sectionMarker = s.take 7 := htake.trans htake2
    have hpre2 : sectionMarker <+: s := by
      rw [hms]
      exact List.take_prefix 7 s
    exact isPrefixOf_containsSub s sectionMarker (List.isPrefixOf_iff_prefix.mpr hpre2)
  · right
    by_contra hne
    have hpos : 0 < s.length := List.length_pos.mpr hne
    have hk : s.length < 7 := by omega
    have hsplit : (s ++ (sectionMarker ++ rest)).take 7 =
        s ++ (sectionMarker ++ rest).take (7 - s.length) := by
      rw [List.take_append_eq_append_take, List.take_of_length_le (by omega)]
    have htm : (sectionMarker ++ rest).take (7 - s.length) =
        sectionMarker.take (7 - s.length) :=
      List.take_append_of_le_length (by simp [marker_length])
    have hmain : sectionMarker = s ++ sectionMarker.take (7 - s.length) := by
      calc sectionMarker = (s ++ (sectionMarker ++ rest)).take 7 := htake
        _ = s ++ (sectionMarker ++ rest).take (7 - s.length) := hsplit
        _ = s ++ sectionMarker.take (7 - s.length) := by rw [htm]
    have hs : s = List.take s.length sectionMarker := by
      have h2 := congrArg (List.take s.length) hmain
      rw [List.take_left] at h2
      exact h2.symm
    have hdec : ∀ k : Fin 7, k.val = 0 ∨
        sectionMarker ≠ sectionMarker.take k.val ++ sectionMarker.take (7 - k.val) := by
      decide
    rcases hdec ⟨s.length, hk⟩ with h0 | hne2
    · have h0p : s.length = 0 := h0
      omega
    · apply hne2
      rw [← hs]
      exact hmain

theorem splitSecF_pre_marker : ∀ (pre rest acc : List Char) (f : Nat),
    (pre ++ (sectionMarker ++ rest)).length ≤ f →
    containsSub pre sectionMarker = false →
    splitSecF f (pre ++ (sectionMarker ++ rest)) acc =
      (acc.reverse ++ pre) ::
        splitSecF (rest.dropWhile jsWS).length (rest.dropWhile jsWS) [] := by
  intro pre
  induction pre with
  | nil =>
    intro rest acc f hf _
    cases f with
    | zero =>
      simp only [List.nil_append, List.length_append, marker_length] at hf
      omega
    | succ g =>
      have hm : sectionMarker.isPrefixOf (sectionMarker ++ rest) = true :=
        List.isPrefixOf_iff_prefix.mpr (List.prefix_append _ _)
      simp only [List.nil_append]
      simp only [splitSecF, hm, if_true]
      have hdrop : (sectionMarker ++ rest).drop 7 = rest := by
        have h7 : (7 : Nat) = sectionMarker.length := rfl
        rw [h7, List.drop_left]
      rw [hdrop]
      rw [splitSecF_fuelIrrel g (rest.dropWhile jsWS).length (rest.dropWhile jsWS) [] ?_
        (le_refl _)]
      · simp
      · have h1 := dropWhile_length_le jsWS rest
        simp only [List.nil_append, List.length_append, marker_length] at hf
        omega
  | cons c pre2 ih =>
    intro rest acc f hf hc
    have hc2 : sectionMarker.isPrefixOf (c :: pre2) = false ∧
        containsSub pre2 sectionMarker = false := by
      have h2 : (sectionMarker.isPrefixOf (c :: pre2) ||
          containsSub pre2 sectionMarker) = false := hc
      simpa [Bool.or_eq_false_iff] using h2
    have hparts : sectionMarker.isPrefixOf (c :: (pre2 ++ (sectionMarker ++ rest))) = false := by
      cases hx : sectionMarker.isPrefixOf (c :: (pre2 ++ (sectionMarker ++ rest)))
      · rfl
      · exfalso
        have hx2 : sectionMarker.isPrefixOf ((c :: pre2) ++ (sectionMarker ++ rest)) = true := hx
        rcases marker_no_straddle (c :: pre2) rest hx2 with hcon | hcon
        · rw [hc] at hcon
          cases hcon
        · exact List.cons_ne_nil c pre2 hcon
    cases f with
    | zero => simp at hf
    | succ g =>
      have hgoal : (c :: pre2) ++ (sectionMarker ++ rest) =
          c :: (pre2 ++ (sectionMarker ++ rest)) := rfl
      rw [hgoal]
      simp only [splitSecF, hparts, Bool.false_eq_true, if_false]
      rw [ih rest (c :: acc) g
        (by simp only [hgoal, List.length_cons] at hf; omega) hc2.2]
      simp

/-- C10: text before the first "Traces:" marker (or a whole document
with no marker at all) is not discarded: it survives the section split
as its own segment and is parsed by the tree builder like any other
section, so preamble lines produce nodes in the output forest. -/
theorem preamble_kept :
    (∀ text : String, text.data ≠ [] → containsSub text.data sectionMarker = false →
      parseTraceFile text = postAssign 0 (parseTraceLines (splitNL text.data) 0)) ∧
    (∀ pre rest : List Char, pre ≠ [] → containsSub pre sectionMarker = false →
      ∃ tail, parseTraceFile ⟨pre ++ (sectionMarker ++ rest)⟩ =
        postAssign 0 (parseTraceLines (splitNL pre) 0 ++ tail)) ∧
    parseTraceFile "hello\nTraces:\nA::b()" =
      [Trace.node { id := "trace-0", content := "hello", depth := 0, contractName := none,
                    functionName := none, callType := none, isReturn := false, raw := "hello",
                    rowIndex := 1, stackId := some 0, parent := none } .nil,
       Trace.node { id := "trace-2", content := "A::b()", depth := 0,
                    contractName := some "A", functionName := some "b", callType := none,
                    isReturn := false, raw := "A::b()", rowIndex := 3, stackId := some 1,
                    parent := none } .nil] := by
  refine ⟨fun text hne hnc => ?_, fun pre rest hne hnc => ?_, rfl⟩
  · have hsplit : splitSections text.data = [text.data] := by
      rw [splitSections, splitSecF_no_marker text.data text.data.length [] (le_refl _) hnc]
      simp
    rw [parseTraceFile, hsplit]
    have hfil : [text.data].filter (fun s => !s.isEmpty) = [text.data] := by
      simp [List.isEmpty_iff, hne]
    rw [hfil]
    simp [parseSections]
  · have hsplit : splitSections (pre ++ (sectionMarker ++ rest)) =
        pre :: splitSecF (rest.dropWhile jsWS).length (rest.dropWhile jsWS) [] := by
      rw [splitSections, splitSecF_pre_marker pre rest [] _ (le_refl _) hnc]
      simp
    refine ⟨parseSections
      ((splitSecF (rest.dropWhile jsWS).length (rest.dropWhile jsWS) []).filter
        (fun s => !s.isEmpty)) (0 + (splitNL pre).length), ?_⟩
    rw [parseTraceFile]
    have hdata : (⟨pre ++ (sectionMarker ++ rest)⟩ : String).data =
        pre ++ (sectionMarker ++ rest) := rfl
    rw [hdata, hsplit]
    have hfil : (pre :: splitSecF (rest.dropWhile jsWS).length (rest.dropWhile jsWS) []).filter
          (fun s => !s.isEmpty) =
        pre :: (splitSecF (rest.dropWhile jsWS).length (rest.dropWhile jsWS) []).filter
          (fun s => !s.isEmpty) := by
      simp [List.filter_cons, List.isEmpty_iff, hne]
    rw [hfil]
    rfl

/-- Witness for C10: a marker-free document is parsed whole, and a
one-line preamble before a marker yields its own leading section. -/
theorem preamble_kept_witness :
    parseTraceFile "hi" = postAssign 0 (parseTraceLines (splitNL "hi".data) 0) ∧
    (∃ tail, parseTraceFile ⟨"x".data ++ (sectionMarker ++ "\nR::r()".data)⟩ =
      postAssign 0 (parseTraceLines (splitNL "x".data) 0 ++ tail)) :=
  ⟨preamble_kept.1 "hi" (by decide) (by decide),
   preamble_kept.2.1 "x".data "\nR::r()".data (by decide) (by decide)⟩

end TraceViewer
